import Mathlib

/-!
Shallow embedding of the text-processing core of the notion_ai_agent_mem0
repository (mainv2.py, notion_pages.py, notion_databases.py,
streamlit_notion_chatbot.py), together with theorems settling the frozen
claims about it.

Python strings are modelled as Lean `String`s; where counting and matching
arguments are needed we work on the underlying `List Char`.  Python string
operations used by the repository (`str.count`, `in`, `str.strip`,
`str.lower`, `str.replace`, `str.split`, `str.join`, `int`, and the one
regular-expression substitution `re.sub(r'\n\s*\n\s*\n', '\n\n', _)`) are
given executable models below, each next to the code that uses it.
-/

namespace NotionAgent

/-- Python whitespace (the set matched by `str.isspace`, `str.strip()` with no
argument, and `\s` in an `re` pattern over `str`): ASCII whitespace plus the
Unicode space characters. -/
def pyIsSpace (c : Char) : Bool :=
  c = ' ' || c = '\t' || c = '\n' || c = '\r' || c = '\x0b' || c = '\x0c' ||
  ('\x1c' ≤ c && c ≤ '\x1f') || c = '\x85' || c = '\xa0' || c = ' ' ||
  (' ' ≤ c && c ≤ ' ') || c = ' ' || c = ' ' ||
  c = ' ' || c = ' ' || c = '　'

/-- Model of Python `str.strip()` on a character list: drop whitespace from
both ends. -/
def pyStripList (l : List Char) : List Char :=
  ((l.dropWhile pyIsSpace).reverse.dropWhile pyIsSpace).reverse

/-- Model of Python `str.strip()`. -/
def pyStrip (s : String) : String :=
  String.mk (pyStripList s.data)

/-- Concatenation of a list of strings (Python `+=` accumulation /
`"".join`). -/
def strConcat : List String → String
  | [] => ""
  | s :: rest => s ++ strConcat rest

/-- Model of Python `sep.join(xs)`. -/
def pyJoin (sep : String) : List String → String
  | [] => ""
  | [s] => s
  | s :: rest => s ++ sep ++ pyJoin sep rest

/-- Helper for the model of Python `str.count`: `countFrom needle l k` counts
the non-overlapping occurrences of `needle` in `l` that start at or after
position `k`, scanning left to right and, on a match, skipping past it
(greedy non-overlapping count, exactly Python `str.count` semantics). -/
def countFrom (needle : List Char) : List Char → Nat → Nat
  | [], _ => 0
  | _ :: rest, k + 1 => countFrom needle rest k
  | c :: rest, 0 =>
      if needle.isPrefixOf (c :: rest) then
        1 + countFrom needle rest (needle.length - 1)
      else
        countFrom needle rest 0

/-- Model of Python `haystack.count(needle)` for a non-empty needle:
the number of non-overlapping occurrences, scanning left to right. -/
def countSub (needle l : List Char) : Nat :=
  countFrom needle l 0

/-- Model of Python `needle in haystack` (substring containment test). -/
def containsSubList (needle : List Char) : List Char → Bool
  | [] => needle.isEmpty
  | c :: rest => needle.isPrefixOf (c :: rest) || containsSubList needle rest

/-- Model of Python `s.startswith(p)`. -/
def pyStartsWith (p s : String) : Bool :=
  p.data.isPrefixOf s.data

/-- Model of Python `s.split(sep)` for a single-character separator, on
character lists: splitting the empty string yields one empty field. -/
def pySplitChar (sep : Char) : List Char → List (List Char)
  | [] => [[]]
  | c :: rest =>
      if c = sep then [] :: pySplitChar sep rest
      else
        match pySplitChar sep rest with
        | x :: xs => (c :: x) :: xs
        | [] => [[c]]

/-- Model of Python `s.split(sep)` for a single-character separator. -/
def pySplit (sep : Char) (s : String) : List String :=
  (pySplitChar sep s.data).map String.mk

/-- Model of Python `str.count` at the `String` level. -/
def pyCount (needle s : String) : Nat :=
  countSub needle.data s.data

/-- Model of Python `needle in s` at the `String` level. -/
def pyInStr (needle s : String) : Bool :=
  containsSubList needle.data s.data

/-- Model of Python `s.lower()` (ASCII case folding; every string the
repository derives user keys from is ASCII). -/
def pyLower (s : String) : String :=
  String.mk (s.data.map Char.toLower)

/-- Model of Python `s.replace(' ', '_')` (single-character replacement). -/
def replaceSpaces (s : String) : String :=
  String.mk (s.data.map (fun c => if c = ' ' then '_' else c))

/-!
Owner-key derivation.

`mainv2.py` (`NotionGroqChatbot.get_user_info`, lines 65-71) reads the name,
strips it, and derives `user_id = f"user_{user_name.lower().replace(' ', '_')}"`.
`streamlit_notion_chatbot.py` (`main`, lines 223-227) reads the name from a
text box and derives `user_id = f"user_{user_name.lower().replace(' ', '_')}"`
without stripping it.
-/

/-- Owner key derived by the CLI surface (`mainv2.py` lines 67-69):
the input is stripped by `input(...).strip()` before the key is built. -/
def cli_user_id (name : String) : String :=
  "user_" ++ replaceSpaces (pyLower (pyStrip name))

/-- Owner key derived by the browser surface
(`streamlit_notion_chatbot.py` lines 223-226): no strip is applied. -/
def streamlit_user_id (name : String) : String :=
  "user_" ++ replaceSpaces (pyLower name)

/-!
Memory filtering and prompt-context assembly
(`mainv2.py` `generate_response`, lines 366-379, and
`streamlit_notion_chatbot.py` `generate_response`, lines 72-81).
-/

/-- The sentinel prefix marking a stored content snapshot. -/
def sentinel : String := "Notion Knowledge Base Content:"

/-- The memories surviving the sentinel filter, in their given order
(`mainv2.py` lines 367-374). -/
def filtered_memories (mems : List String) : List String :=
  mems.filter (fun m => !(pyStartsWith sentinel m))

/-- The memories actually joined into the prompt context:
`filtered_memories[:3]` (`mainv2.py` line 379). -/
def context_memories (mems : List String) : List String :=
  (filtered_memories mems).take 3

/-- The "Previous conversation context" block built by `generate_response`
(`mainv2.py` lines 377-379): present only when some memory survived the
filter. -/
def build_context (mems : List String) : String :=
  if filtered_memories mems ≠ [] then
    "Previous conversation context:\n" ++ pyJoin "\n" (context_memories mems) ++ "\n\n"
  else ""

/-!
Memory records and defensive owner scoping
(`mainv2.py` `get_relevant_memories` lines 312-321 and `show_memories`
lines 425-447; `streamlit_notion_chatbot.py` `get_relevant_memories`
lines 40-50).
-/

/-- A record returned by the memory store: the two fields the code reads,
each absent when the store omitted the key (`dict.get`). -/
structure MemRecord where
  user_id : Option String
  memory : Option String
deriving DecidableEq, Repr

/-- Stand-in for Python `str(memory)`, the fallback text used when the
record has no "memory" key (`memory.get("memory", str(memory))`): a
rendering of the record.  Its exact shape is irrelevant to the claims; it is
non-empty and does not start with the sentinel, as the repr of a dict. -/
def memRepr (r : MemRecord) : String :=
  "\x7b" ++ (match r.user_id with
    | some u => "user_id: " ++ u
    | none => "user_id: None") ++ "\x7d"

/-- The text the code extracts from a memory record:
`memory.get("memory", str(memory))`. -/
def memText (r : MemRecord) : String :=
  match r.memory with
  | some t => t
  | none => memRepr r

/-- Model of `get_relevant_memories` (`mainv2.py` lines 312-321): keep only
records whose `user_id` equals the requested owner, then extract each
record's text, dropping falsy (empty) texts. -/
def get_relevant_memories (uid : String) (records : List MemRecord) : List String :=
  (records.filter (fun r => r.user_id = some uid)).filterMap
    (fun r => if memText r ≠ "" then some (memText r) else none)

/-- Model of the list of memory texts `show_memories` prints
(`mainv2.py` lines 425-447): filter by owner, most recent first, first 10,
then display the first 5 non-empty texts that are not content snapshots. -/
def show_memories_displayed (uid : String) (records : List MemRecord) : List String :=
  (((records.filter (fun r => r.user_id = some uid)).reverse.take 10).filterMap
    (fun r => if memText r ≠ "" ∧ !(pyStartsWith sentinel (memText r))
              then some (memText r) else none)).take 5

/-!
Page-selection parsing (`mainv2.py` `parse_page_selection`, lines 154-184).
Pages are dictionaries compared by value; they are modelled by an arbitrary
type with decidable equality.
-/

/-- Model of Python `int(s)`: optional surrounding whitespace, an optional
sign, then a non-empty ASCII digit string in which single underscores may
separate digits; anything else raises `ValueError`, modelled as `none`. -/
def pyDigits (acc : Nat) : List Char → Option Nat
  | [] => some acc
  | c :: rest =>
    if c.isDigit then pyDigits (acc * 10 + (c.toNat - 48)) rest
    else if c = '_' then
      match rest with
      | d :: rest' =>
          if d.isDigit then pyDigits (acc * 10 + (d.toNat - 48)) rest' else none
      | [] => none
    else none

/-- The digits of a Python integer literal (first character must be a
digit). -/
def pyNatOfChars : List Char → Option Nat
  | [] => none
  | c :: rest => if c.isDigit then pyDigits (c.toNat - 48) rest else none

/-- Model of Python `int(s)`. -/
def pyInt (s : String) : Option Int :=
  match pyStripList s.data with
  | '+' :: rest => (pyNatOfChars rest).map Int.ofNat
  | '-' :: rest => (pyNatOfChars rest).map (fun n => -(n : Int))
  | t => (pyNatOfChars t).map Int.ofNat

/-- Model of Python `part.split('-', 1)` on character lists: the part before
the first separator and the part after it. -/
def splitFirstAux (sep : Char) : List Char → List Char × List Char
  | [] => ([], [])
  | a :: rest =>
      if a = sep then ([], rest)
      else
        let p := splitFirstAux sep rest
        (a :: p.1, p.2)

/-- Append a page unless it is already selected
(`if pages[i] not in selected_pages: selected_pages.append(pages[i])`). -/
def addIfNew {α : Type} [DecidableEq α] (acc : List α) (x : α) : List α :=
  if x ∈ acc then acc else acc ++ [x]

/-- The loop `for i in range(start_idx, min(end_idx + 1, len(pages)))`
appending each not-yet-selected page. -/
def addRange {α : Type} [DecidableEq α] (pages acc : List α) (start stop : Nat) : List α :=
  (List.range' start (stop - start)).foldl
    (fun a i =>
      match pages[i]? with
      | some x => addIfNew a x
      | none => a)
    acc

/-- The body of `parse_page_selection`'s loop over comma-separated parts:
`none` models a `ValueError` escaping to the `except` clause. -/
def parseParts {α : Type} [DecidableEq α] :
    List String → List α → List α → Option (List α)
  | [], _, acc => some acc
  | part :: rest, pages, acc =>
    if part.data.contains '-' then
      match pyInt (String.mk (splitFirstAux '-' part.data).1),
            pyInt (String.mk (splitFirstAux '-' part.data).2) with
      | some s, some e =>
        if 0 ≤ s - 1 ∧ s - 1 < (pages.length : Int) ∧
           0 ≤ e - 1 ∧ e - 1 < (pages.length : Int) then
          parseParts rest pages
            (addRange pages acc (s - 1).toNat
              (min ((e - 1).toNat + 1) pages.length))
        else
          parseParts rest pages acc
      | _, _ => none
    else
      match pyInt part with
      | some n =>
        if 0 ≤ n - 1 ∧ n - 1 < (pages.length : Int) then
          match pages[(n - 1).toNat]? with
          | some x => parseParts rest pages (addIfNew acc x)
          | none => parseParts rest pages acc
        else
          parseParts rest pages acc
      | none => none

/-- Model of `parse_page_selection` (`mainv2.py` lines 154-184): split the
selection on commas, strip each part, process parts in order; a
`ValueError` anywhere makes the whole call return the empty list. -/
def parse_page_selection {α : Type} [DecidableEq α]
    (selection : String) (pages : List α) : List α :=
  match parseParts ((pySplit ',' selection).map pyStrip) pages [] with
  | some acc => acc
  | none => []

/-!
Database flattening (`notion_databases.py` `format_database_content`,
lines 100-124).  A database's content dictionary holds a title, a
`properties` mapping (name to type tag) and a list of entries, each a
mapping from property name to an extracted value; Python dictionaries
preserve insertion order, so both mappings are modelled as association
lists.
-/

/-- A value extracted from a database page property
(`get_database_content`, lines 73-90): a string, a list of strings
(multi-select), or a boolean (checkbox). -/
inductive PropValue where
  | s (v : String)
  | l (vs : List String)
  | b (v : Bool)
deriving DecidableEq, Repr

/-- The text an extracted value contributes to its line:
lists are joined with `", "` (line 120), booleans format as Python booleans
do in an f-string. -/
def valueText : PropValue → String
  | .s v => v
  | .l vs => pyJoin ", " vs
  | .b v => if v then "True" else "False"

/-- The content dictionary built by `get_database_content`. -/
structure DBContent where
  title : String
  properties : List (String × String)
  entries : List (List (String × PropValue))
deriving DecidableEq

/-- The line `"=" * 80`. -/
def eqBar : String := String.mk (List.replicate 80 '=')

/-- The line `"-" * 40`. -/
def dashBar : String := String.mk (List.replicate 40 '-')

/-- Model of `format_database_content` (`notion_databases.py` lines
100-124): header, properties section, then one block per entry; each block
iterates the entry's own items in their stored order. -/
def format_database_content : Option DBContent → String
  | none => "No database content available."
  | some c =>
    "Database: " ++ c.title ++ "\n" ++ eqBar ++ "\n\n" ++
    "Properties:\n" ++
    strConcat (c.properties.map (fun p => "- " ++ p.1 ++ " (" ++ p.2 ++ ")\n")) ++
    "\n" ++
    "Entries:\n" ++
    strConcat (c.entries.map (fun e =>
      dashBar ++ "\n" ++
      strConcat (e.map (fun kv => kv.1 ++ ": " ++ valueText kv.2 ++ "\n")) ++
      "\n"))

/-- Modelled from the spec (section 4.3), for comparison with
`format_database_content`: the entry blocks list one line per schema entry
in the schema's order, looking each property up in the record and rendering
a missing property as `"N/A"`. -/
def format_database_content_spec (c : DBContent) : String :=
  "Database: " ++ c.title ++ "\n" ++ eqBar ++ "\n\n" ++
  "Properties:\n" ++
  strConcat (c.properties.map (fun p => "- " ++ p.1 ++ " (" ++ p.2 ++ ")\n")) ++
  "\n" ++
  "Entries:\n" ++
  strConcat (c.entries.map (fun e =>
    dashBar ++ "\n" ++
    strConcat (c.properties.map (fun p =>
      p.1 ++ ": " ++
      (match e.lookup p.1 with
       | some v => valueText v
       | none => "N/A") ++ "\n")) ++
    "\n"))

/-!
Page flattening (`notion_pages.py` `extract_text_from_block` lines 54-91 and
`get_page_content` lines 93-140).  The source file stores its bullet and
checkbox glyph literals double-encoded (the bullet on line 77 is the byte
sequence C3 A2 E2 82 AC C2 A2, which the interpreter reads as the three
characters U+00E2, U+20AC, U+00A2; the checkbox literals on line 81 are
likewise U+00E2 U+02DC U+2018 and U+00E2 U+02DC), so those exact character
sequences are what the program renders, and what the model uses.
-/

/-- The block types `extract_text_from_block` distinguishes, with the extra
data each branch reads from the block's payload. -/
inductive BlockKind where
  | heading1
  | heading2
  | heading3
  | paragraph
  | bulleted
  | numbered
  | toDo (checked : Bool)
  | quote
  | code (language : String)
  | divider
  | other
deriving DecidableEq, Repr

/-- A content block: its type, the `plain_text` runs of its `rich_text`
payload, the `has_children` flag, and the children fetched one level deep. -/
structure Block where
  kind : BlockKind
  richText : List String
  hasChildren : Bool
  children : List Block

/-- Model of `extract_text_from_block` (`notion_pages.py` lines 54-91):
concatenate the plain-text runs, then apply the per-type template; an
unrecognized type keeps the raw concatenation. -/
def extract_text_from_block (b : Block) : String :=
  let t := strConcat b.richText
  match b.kind with
  | .heading1 => "\n# " ++ t ++ "\n"
  | .heading2 => "\n## " ++ t ++ "\n"
  | .heading3 => "\n### " ++ t ++ "\n"
  | .paragraph => t ++ "\n"
  | .bulleted => "\u00E2\u20AC\u00A2 " ++ t ++ "\n"
  | .numbered => "1. " ++ t ++ "\n"
  | .toDo checked => (if checked then "\u00E2\u02DC\u2018" else "\u00E2\u02DC") ++ " " ++ t ++ "\n"
  | .quote => "> " ++ t ++ "\n"
  | .code language => "```" ++ language ++ "\n" ++ t ++ "\n```\n"
  | .divider => "\n---\n"
  | .other => t

/-- The indentation applied to a child block's text (`get_page_content`
line 119): prefix every line with two spaces. -/
def indentChild (s : String) : String :=
  pyJoin "\n" ((pySplit '\n' s).map (fun line => "  " ++ line))

/-- One block's contribution to the page text (`get_page_content` lines
108-122): its own text, then, when `has_children` is set, each child's
indented text. -/
def blockFull (b : Block) : String :=
  extract_text_from_block b ++
  (if b.hasChildren then
     strConcat (b.children.map (fun c => indentChild (extract_text_from_block c)))
   else "")

/-- The page text before whitespace cleanup (`get_page_content` lines
105-122): the title header followed by every block's contribution. -/
def pageRaw (title : String) (blocks : List Block) : String :=
  "# " ++ title ++ "\n\n" ++ strConcat (blocks.map blockFull)

/-- The number of newline characters in a character list. -/
def nlCount (l : List Char) : Nat :=
  l.count '\n'

/-- The leading whitespace run of a character list. -/
def wsRun (l : List Char) : List Char :=
  l.takeWhile pyIsSpace

/-- The length of the prefix of `l` that ends with the last `'\n'` of `l`
(0 when `l` has no newline). -/
def lastNlLen : List Char → Nat
  | [] => 0
  | c :: rest =>
      let r := lastNlLen rest
      if r = 0 then (if c = '\n' then 1 else 0) else r + 1

/-- Model of `re.sub(r'\n\s*\n\s*\n', '\n\n', content)` (`get_page_content`
line 125), with `fuel` bounding the scan length.  The pattern consumes only
whitespace, so a leftmost match starts at a newline whose whitespace run
contains at least 3 newlines, and greedy backtracking makes the match extend
exactly through the last newline of that run; scanning resumes after the
replacement. -/
def collapseAux : Nat → List Char → List Char
  | 0, l => l
  | _ + 1, [] => []
  | fuel + 1, c :: rest =>
      if c = '\n' ∧ 3 ≤ nlCount (wsRun (c :: rest)) then
        '\n' :: '\n' ::
          collapseAux fuel (List.drop (lastNlLen (wsRun (c :: rest))) (c :: rest))
      else
        c :: collapseAux fuel rest

/-- Model of `re.sub(r'\n\s*\n\s*\n', '\n\n', s)` on strings. -/
def pySubCollapse (s : String) : String :=
  String.mk (collapseAux s.data.length s.data)

/-- The `content` field `get_page_content` returns for a page with the given
title and blocks (lines 105-126): flatten, collapse newline runs, strip. -/
def get_page_content_text (title : String) (blocks : List Block) : String :=
  pyStrip (pySubCollapse (pageRaw title blocks))

/-!
Aggregation of loaded content (`mainv2.py` `load_notion_content` lines
229-251 and `show_loaded_content` lines 288-296; the Streamlit variant is
`load_notion_content` lines 141-174 and the summary at lines 295-296).
-/

/-- One successfully loaded page's contribution to the aggregated page
section (`mainv2.py` lines 236-239): separator rules, the `PAGE:` marker
line inserted by the caller, then the flattened content. -/
def pageBlockText (title content : String) : String :=
  "\n" ++ eqBar ++ "\n" ++ "PAGE: " ++ title ++ "\n" ++ eqBar ++ "\n" ++
  content ++ "\n\n"

/-- The concatenated page section for a list of (title, flattened content)
pairs. -/
def pagesSection (ps : List (String × String)) : String :=
  strConcat (ps.map (fun p => pageBlockText p.1 p.2))

/-- The per-item page loop of `load_notion_content` (`mainv2.py` lines
229-244): each list element is the outcome of fetching one selected page,
`none` when `get_page_content` failed or returned no content; a failed item
contributes nothing and the loop continues. -/
def load_pages (results : List (Option (String × String))) : String :=
  strConcat (results.map (fun r =>
    match r with
    | some d => pageBlockText d.1 d.2
    | none => ""))

/-- The combined `notion_content` blob (`mainv2.py` lines 246-251): the
database section, when database content is non-empty, then the page
section, when page content is non-empty, each under its banner. -/
def notionContent (db : String) (ps : List (String × String)) : String :=
  (if db ≠ "" then "NOTION DATABASES:\n" ++ eqBar ++ "\n" ++ db ++ "\n\n" else "") ++
  (if pagesSection ps ≠ "" then "NOTION PAGES:\n" ++ eqBar ++ "\n" ++ pagesSection ps
   else "")

/-- The page counter of the content summary (`mainv2.py` line 291):
`content.count("PAGE: ") if "NOTION PAGES:" in content else 0`. -/
def pageCount (content : String) : Nat :=
  if pyInStr "NOTION PAGES:" content then pyCount "PAGE: " content else 0

/-!
Theorems.
-/

set_option maxRecDepth 10000

/-- C7 counterexample: the browser surface does not strip the entered name,
so the input `" Ada Lovelace "` (with surrounding spaces) yields
`"user__ada_lovelace_"`, not `"user_ada_lovelace"` as the claim states for
both surfaces. -/
theorem owner_key_cex :
    (streamlit_user_id " Ada Lovelace " == "user_ada_lovelace") = false := by
  decide

/-- C7 (amended): both surfaces build the key as `"user_"` plus the
lowercased name with spaces replaced by underscores, but only the CLI
strips the input first; `" Ada Lovelace "` yields `"user_ada_lovelace"` on
the CLI and `"user__ada_lovelace_"` in the browser, and in general the CLI
key is the browser key of the stripped name. -/
theorem owner_key_derivation :
    cli_user_id " Ada Lovelace " = "user_ada_lovelace" ∧
    streamlit_user_id " Ada Lovelace " = "user__ada_lovelace_" ∧
    ∀ name : String, cli_user_id name = streamlit_user_id (pyStrip name) :=
  ⟨by decide, by decide, fun _ => rfl⟩

/-- C3: every memory string that reaches the prompt context survives the
sentinel filter, hence does not start with the content-snapshot sentinel. -/
theorem context_excludes_snapshot (mems : List String) (m : String)
    (h : m ∈ context_memories mems) : pyStartsWith sentinel m = false := by
  have h1 : m ∈ filtered_memories mems := List.take_subset _ _ h
  have h2 := List.of_mem_filter h1
  simpa using h2

/-- C3 witness: a concrete non-snapshot memory in the context of a list that
also holds a snapshot. -/
theorem context_excludes_snapshot_witness :
    ("hello" ∈ context_memories ["Notion Knowledge Base Content: dump", "hello"]) ∧
    pyStartsWith sentinel "hello" = false :=
  ⟨by decide,
   context_excludes_snapshot ["Notion Knowledge Base Content: dump", "hello"] "hello"
     (by decide)⟩

/-- C6: the prompt context takes at most 3 memories, and exactly an initial
segment of the sentinel-filtered list, which is itself a sublist of the
input — so selection is positional and order-preserving, with no ranking. -/
theorem context_memory_cap (mems : List String) :
    (context_memories mems).length ≤ 3 ∧
    context_memories mems <+: filtered_memories mems ∧
    (filtered_memories mems).Sublist mems :=
  ⟨List.length_take_le _ _, List.take_prefix _ _, List.filter_sublist _⟩

/-- C8: per-item error isolation in the page-loading loop: an item that
failed (contributing `none`) leaves the contributions of all other items
unchanged, and the aggregated page content is exactly the concatenation of
the blocks of the items that succeeded, in order. -/
theorem load_pages_isolation (xs ys : List (Option (String × String))) :
    load_pages (xs ++ none :: ys) = load_pages (xs ++ ys) ∧
    load_pages xs =
      strConcat ((xs.filterMap id).map (fun d => pageBlockText d.1 d.2)) := by
  constructor
  · induction xs with
    | nil => simp [load_pages, strConcat]
    | cons x xs ih =>
        cases x <;> simp [load_pages, strConcat] at ih ⊢ <;> rw [ih]
  · induction xs with
    | nil => rfl
    | cons x xs ih =>
        cases x <;> simp [load_pages, strConcat] at ih ⊢ <;> rw [ih]

/-- C9: the surfaced memories (retrieval context and memory display) depend
only on the records whose owner field equals the requested owner key, and
every retrieved memory text comes from such a record. -/
theorem memories_owner_scoped (uid : String) (rs rs' : List MemRecord)
    (h : rs.filter (fun r => r.user_id = some uid) =
         rs'.filter (fun r => r.user_id = some uid)) :
    get_relevant_memories uid rs = get_relevant_memories uid rs' ∧
    show_memories_displayed uid rs = show_memories_displayed uid rs' ∧
    ∀ m ∈ get_relevant_memories uid rs,
      ∃ r ∈ rs, r.user_id = some uid ∧ memText r = m := by
  refine ⟨by unfold get_relevant_memories; rw [h],
          by unfold show_memories_displayed; rw [h], ?_⟩
  intro m hm
  obtain ⟨r, hr, hf⟩ := List.mem_filterMap.mp hm
  obtain ⟨hrs, hp⟩ := List.mem_filter.mp hr
  refine ⟨r, hrs, by simpa using hp, ?_⟩
  by_cases hne : memText r = ""
  · simp [hne] at hf
  · simp [hne] at hf
    exact hf

theorem addIfNew_nodup {α : Type} [DecidableEq α] {acc : List α} {x : α}
    (h : acc.Nodup) : (addIfNew acc x).Nodup := by
  unfold addIfNew
  split
  · exact h
  · next hx => simp [List.nodup_append, h, hx]

theorem mem_addIfNew {α : Type} [DecidableEq α] {acc : List α} {x y : α}
    (h : y ∈ addIfNew acc x) : y ∈ acc ∨ y = x := by
  unfold addIfNew at h
  split at h
  · exact Or.inl h
  · simpa using h

theorem foldl_sel_inv {α : Type} [DecidableEq α] (pages : List α) (idxs : List Nat) :
    ∀ acc : List α, acc.Nodup → acc ⊆ pages →
      (idxs.foldl (fun a i => match pages[i]? with
          | some x => addIfNew a x
          | none => a) acc).Nodup ∧
      (idxs.foldl (fun a i => match pages[i]? with
          | some x => addIfNew a x
          | none => a) acc) ⊆ pages := by
  induction idxs with
  | nil => exact fun acc h1 h2 => ⟨h1, h2⟩
  | cons i idxs ih =>
      intro acc h1 h2
      simp only [List.foldl_cons]
      rcases hx : pages[i]? with _ | x
      · simpa [hx] using ih acc h1 h2
      · have hmem : x ∈ pages := List.getElem?_mem hx
        have hsub : addIfNew acc x ⊆ pages := by
          intro y hy
          rcases mem_addIfNew hy with h' | h'
          · exact h2 h'
          · exact h' ▸ hmem
        simpa [hx] using ih (addIfNew acc x) (addIfNew_nodup h1) hsub

theorem addRange_inv {α : Type} [DecidableEq α] {pages acc : List α}
    {start stop : Nat} (h1 : acc.Nodup) (h2 : acc ⊆ pages) :
    (addRange pages acc start stop).Nodup ∧ addRange pages acc start stop ⊆ pages := by
  unfold addRange
  exact foldl_sel_inv pages (List.range' start (stop - start)) acc h1 h2

theorem parseParts_inv {α : Type} [DecidableEq α] (parts : List String) (pages : List α) :
    ∀ acc r : List α, acc.Nodup → acc ⊆ pages →
      parseParts parts pages acc = some r → r.Nodup ∧ r ⊆ pages := by
  induction parts with
  | nil =>
      intro acc r h1 h2 he
      simp only [parseParts, Option.some.injEq] at he
      exact he ▸ ⟨h1, h2⟩
  | cons part rest ih =>
      intro acc r h1 h2 he
      simp only [parseParts] at he
      split at he
      · split at he
        · split at he
          · exact ih _ r (addRange_inv h1 h2).1 (addRange_inv h1 h2).2 he
          · exact ih acc r h1 h2 he
        · exact absurd he (by simp)
      · split at he
        · split at he
          · split at he
            · next x hx =>
                have hmem : x ∈ pages := List.getElem?_mem hx
                have hsub : addIfNew acc x ⊆ pages := by
                  intro y hy
                  rcases mem_addIfNew hy with h' | h'
                  · exact h2 h'
                  · exact h' ▸ hmem
                exact ih _ r (addIfNew_nodup h1) hsub he
            · exact ih acc r h1 h2 he
          · exact ih acc r h1 h2 he
        · exact absurd he (by simp)

/-- C10: `parse_page_selection` never lists an available page twice, only
returns pages drawn from the input list, and turns a malformed selection
into the empty list; moreover `"1,1,1-3"` over three pages selects each page
once, a range reaching past the page list (`"1-5"` over three pages) is
dropped whole rather than clipped, and a non-numeric selection yields `[]`. -/
theorem parse_page_selection_sound {α : Type} [DecidableEq α]
    (selection : String) (pages : List α) :
    (parse_page_selection selection pages).Nodup ∧
    parse_page_selection selection pages ⊆ pages ∧
    parse_page_selection "1,1,1-3" ["a", "b", "c"] = ["a", "b", "c"] ∧
    parse_page_selection "1-5" ["a", "b", "c"] = [] ∧
    parse_page_selection "abc" ["a", "b", "c"] = [] := by
  have key : (parse_page_selection selection pages).Nodup ∧
      parse_page_selection selection pages ⊆ pages := by
    unfold parse_page_selection
    rcases he : parseParts ((pySplit ',' selection).map pyStrip) pages [] with _ | r
    · exact ⟨List.nodup_nil, by simp⟩
    · exact parseParts_inv _ pages [] r List.nodup_nil (by simp) he
  exact ⟨key.1, key.2, by decide, by decide, by decide⟩

/-- C9 witness: adding a record owned by another user changes nothing. -/
theorem memories_owner_scoped_witness :
    ([⟨some "user_a", some "mine"⟩] : List MemRecord).filter
        (fun r => r.user_id = some "user_a") =
      ([⟨some "user_a", some "mine"⟩, ⟨some "user_b", some "other"⟩] :
        List MemRecord).filter (fun r => r.user_id = some "user_a") ∧
    get_relevant_memories "user_a" [⟨some "user_a", some "mine"⟩] =
      get_relevant_memories "user_a"
        [⟨some "user_a", some "mine"⟩, ⟨some "user_b", some "other"⟩] :=
  ⟨by decide,
   (memories_owner_scoped "user_a" [⟨some "user_a", some "mine"⟩]
      [⟨some "user_a", some "mine"⟩, ⟨some "user_b", some "other"⟩]
      (by decide)).1⟩

theorem entry_lines_schema (props : List (String × String)) :
    ∀ e : List (String × PropValue),
      e.map Prod.fst = props.map Prod.fst →
      (props.map Prod.fst).Nodup →
      strConcat (e.map (fun kv => kv.1 ++ ": " ++ valueText kv.2 ++ "\n")) =
      strConcat (props.map (fun p =>
        p.1 ++ ": " ++
        (match e.lookup p.1 with
         | some v => valueText v
         | none => "N/A") ++ "\n")) := by
  induction props with
  | nil =>
      intro e he _
      cases e
      · rfl
      · simp at he
  | cons p props ih =>
      intro e he hnd
      cases e with
      | nil => simp at he
      | cons kv e' =>
          obtain ⟨k, v⟩ := kv
          simp only [List.map_cons, List.cons.injEq] at he
          obtain ⟨hk, htl⟩ := he
          simp only [List.map_cons, List.nodup_cons] at hnd
          obtain ⟨hout, hnd'⟩ := hnd
          simp only [List.map_cons, strConcat]
          have hhead : (k, v).1 ++ ": " ++ valueText (k, v).2 ++ "\n" =
              p.1 ++ ": " ++
              (match ((k, v) :: e').lookup p.1 with
               | some v' => valueText v'
               | none => "N/A") ++ "\n" := by
            simp [List.lookup, hk]
          have htail : (props.map (fun q =>
              q.1 ++ ": " ++
              (match ((k, v) :: e').lookup q.1 with
               | some v' => valueText v'
               | none => "N/A") ++ "\n")) =
              (props.map (fun q =>
              q.1 ++ ": " ++
              (match e'.lookup q.1 with
               | some v' => valueText v'
               | none => "N/A") ++ "\n")) := by
            refine List.map_congr_left (fun q hq => ?_)
            have hqk : q.1 ≠ k := by
              intro hqk
              have hqm : q.1 ∈ props.map Prod.fst := List.mem_map_of_mem Prod.fst hq
              rw [hqk, hk] at hqm
              exact hout hqm
            simp [List.lookup, beq_eq_false_iff_ne.mpr hqk]
          rw [hhead, htail, ih e' htl hnd']

/-- C2 counterexample: a record stored in the order B, A under the schema
A, B is formatted with the line for B first — the code iterates the
record's own key order, not the schema's, and so differs from the
schema-ordered rendering the claim describes. -/
theorem format_database_entries_cex :
    (format_database_content
        (some ⟨"DB", [("A", "rich_text"), ("B", "number")],
          [[("B", .s "2"), ("A", .s "1")]]⟩) ==
      format_database_content_spec
        ⟨"DB", [("A", "rich_text"), ("B", "number")],
          [[("B", .s "2"), ("A", .s "1")]]⟩) = false := by
  decide

/-- C2 (amended): each entry block lists one `"{name}: {value}"` line per
key of the record itself, in the record's stored order — the schema's order
does not govern, and a record missing a schema property simply has no line
for it (no `"N/A"` default).  List values are joined with `", "`.  When
each record's keys are exactly the schema's keys in the schema's order (and
property names are unique), the output coincides with the schema-ordered,
`"N/A"`-defaulting rendering the claim describes. -/
theorem format_database_entries_order (c : DBContent)
    (hkeys : ∀ e ∈ c.entries, e.map Prod.fst = c.properties.map Prod.fst)
    (hnd : (c.properties.map Prod.fst).Nodup) :
    format_database_content (some c) = format_database_content_spec c := by
  simp only [format_database_content, format_database_content_spec]
  have hent : c.entries.map (fun e =>
      dashBar ++ "\n" ++
      strConcat (e.map (fun kv => kv.1 ++ ": " ++ valueText kv.2 ++ "\n")) ++
      "\n") =
      c.entries.map (fun e =>
      dashBar ++ "\n" ++
      strConcat (c.properties.map (fun p =>
        p.1 ++ ": " ++
        (match e.lookup p.1 with
         | some v => valueText v
         | none => "N/A") ++ "\n")) ++
      "\n") := by
    refine List.map_congr_left (fun e he => ?_)
    rw [entry_lines_schema c.properties e (hkeys e he) hnd]
  rw [hent]

/-- C2 witness: a schema-aligned record formats identically under both
renderings. -/
theorem format_database_entries_order_witness :
    (∀ e ∈ ([[("A", PropValue.s "1"), ("B", PropValue.l ["x", "y"])]] :
        List (List (String × PropValue))),
      e.map Prod.fst =
        ([("A", "rich_text"), ("B", "multi_select")] :
          List (String × String)).map Prod.fst) ∧
    format_database_content
        (some ⟨"DB", [("A", "rich_text"), ("B", "multi_select")],
          [[("A", PropValue.s "1"), ("B", PropValue.l ["x", "y"])]]⟩) =
      format_database_content_spec
        ⟨"DB", [("A", "rich_text"), ("B", "multi_select")],
          [[("A", PropValue.s "1"), ("B", PropValue.l ["x", "y"])]]⟩ :=
  ⟨by decide,
   format_database_entries_order
     ⟨"DB", [("A", "rich_text"), ("B", "multi_select")],
       [[("A", PropValue.s "1"), ("B", PropValue.l ["x", "y"])]]⟩
     (by decide) (by decide)⟩

theorem countFrom_eq_drop (needle : List Char) :
    ∀ (l : List Char) (k : Nat), countFrom needle l k = countSub needle (l.drop k) := by
  intro l
  induction l with
  | nil => intro k; simp [countFrom, countSub]
  | cons c rest ih =>
      intro k
      cases k with
      | zero => rfl
      | succ k => simpa [countFrom] using ih k

theorem countSub_nil_eq (needle : List Char) : countSub needle [] = 0 := rfl

theorem countSub_cons_eq (needle : List Char) (c : Char) (rest : List Char) :
    countSub needle (c :: rest) =
      if needle.isPrefixOf (c :: rest) then
        1 + countSub needle (List.drop (needle.length - 1) rest)
      else countSub needle rest := by
  show (if needle.isPrefixOf (c :: rest) then
          1 + countFrom needle rest (needle.length - 1)
        else countFrom needle rest 0) = _
  rw [countFrom_eq_drop, countFrom_eq_drop]
  simp

theorem countSub_append_sep (n0 : Char) (ntail : List Char) (c : Char)
    (hc : c ∉ n0 :: ntail) (l₁ l₂ : List Char) :
    countSub (n0 :: ntail) (l₁ ++ c :: l₂) =
      countSub (n0 :: ntail) l₁ + countSub (n0 :: ntail) l₂ := by
  match l₁ with
  | [] =>
      have hpre : (n0 :: ntail).isPrefixOf (c :: l₂) = false := by
        cases hp : (n0 :: ntail).isPrefixOf (c :: l₂) with
        | false => rfl
        | true =>
            exfalso
            rcases List.cons_prefix_cons.mp (List.isPrefixOf_iff_prefix.mp hp) with ⟨h1, _⟩
            exact hc (by rw [h1]; exact List.mem_cons_self _ _)
      rw [List.nil_append, countSub_cons_eq, hpre, countSub_nil_eq]
      simp
  | a :: rest =>
      cases hp : (n0 :: ntail).isPrefixOf (a :: rest) with
      | true =>
          have hpfx := List.isPrefixOf_iff_prefix.mp hp
          have hpL : (n0 :: ntail).isPrefixOf (a :: (rest ++ c :: l₂)) = true :=
            List.isPrefixOf_iff_prefix.mpr
              (hpfx.trans (List.prefix_append (a :: rest) (c :: l₂)))
          have hlen : ntail.length ≤ rest.length := by
            have := hpfx.length_le
            simpa using this
          have hdrop : List.drop ((n0 :: ntail).length - 1) (rest ++ c :: l₂) =
              List.drop ((n0 :: ntail).length - 1) rest ++ c :: l₂ := by
            apply List.drop_append_of_le_length
            simpa using hlen
          have hrec := countSub_append_sep n0 ntail c hc
            (List.drop ((n0 :: ntail).length - 1) rest) l₂
          rw [List.cons_append, countSub_cons_eq, hpL, if_pos rfl, hdrop, hrec,
            countSub_cons_eq (n0 :: ntail) a rest, hp, if_pos rfl]
          omega
      | false =>
          have hpL : (n0 :: ntail).isPrefixOf (a :: (rest ++ c :: l₂)) = false := by
            cases hq : (n0 :: ntail).isPrefixOf (a :: (rest ++ c :: l₂)) with
            | false => rfl
            | true =>
                exfalso
                have hqfx := List.isPrefixOf_iff_prefix.mp hq
                by_cases hlen : (n0 :: ntail).length ≤ (a :: rest).length
                · have htake := List.prefix_iff_eq_take.mp hqfx
                  rw [show a :: (rest ++ c :: l₂) = (a :: rest) ++ c :: l₂ from rfl,
                    List.take_append_of_le_length hlen] at htake
                  have hptrue : (n0 :: ntail).isPrefixOf (a :: rest) = true := by
                    rw [List.isPrefixOf_iff_prefix]
                    exact List.prefix_iff_eq_take.mpr htake
                  rw [hp] at hptrue
                  exact Bool.false_ne_true hptrue
                · have h2 : ((a :: rest) ++ [c]) <+: (a :: (rest ++ c :: l₂)) :=
                    ⟨l₂, by simp⟩
                  have hcmem : c ∈ n0 :: ntail := by
                    rcases List.prefix_or_prefix_of_prefix h2 hqfx with h3 | h3
                    · exact h3.subset (by simp)
                    · have h4 : (n0 :: ntail) = (a :: rest) ++ [c] := by
                        apply h3.eq_of_length_le
                        simp at hlen ⊢
                        omega
                      rw [h4]
                      simp
                  exact hc hcmem
          have hrec := countSub_append_sep n0 ntail c hc rest l₂
          rw [List.cons_append, countSub_cons_eq, hpL, countSub_cons_eq (n0 :: ntail) a rest,
            hp]
          simp only [Bool.false_eq_true, if_false]
          rw [hrec]
termination_by l₁.length
decreasing_by
  all_goals simp [List.length_drop]
  all_goals omega

theorem countSub_self_append (n0 : Char) (ntail l : List Char) :
    countSub (n0 :: ntail) ((n0 :: ntail) ++ l) = 1 + countSub (n0 :: ntail) l := by
  have hp : (n0 :: ntail).isPrefixOf (n0 :: (ntail ++ l)) = true :=
    List.isPrefixOf_iff_prefix.mpr (List.prefix_append (n0 :: ntail) l)
  rw [List.cons_append, countSub_cons_eq, hp, if_pos rfl]
  congr 1
  rw [show (n0 :: ntail).length - 1 = ntail.length by simp]
  rw [List.drop_append_of_le_length (le_refl _), List.drop_length, List.nil_append]

theorem countSub_zero_of_head_nmem (n0 : Char) (ntail : List Char) :
    ∀ l : List Char, n0 ∉ l → countSub (n0 :: ntail) l = 0 := by
  intro l
  induction l with
  | nil => intro _; rfl
  | cons a rest ih =>
      intro h
      have hp : (n0 :: ntail).isPrefixOf (a :: rest) = false := by
        cases hq : (n0 :: ntail).isPrefixOf (a :: rest) with
        | false => rfl
        | true =>
            exfalso
            rcases List.cons_prefix_cons.mp (List.isPrefixOf_iff_prefix.mp hq) with ⟨h1, _⟩
            exact h (by rw [h1]; exact List.mem_cons_self _ _)
      rw [countSub_cons_eq, hp]
      simp only [Bool.false_eq_true, if_false]
      exact ih (fun hm => h (List.mem_cons_of_mem _ hm))

theorem pageNeedle_eq : "PAGE: ".data = ['P', 'A', 'G', 'E', ':', ' '] := rfl

theorem countPage_sep (l₁ l₂ : List Char) :
    countSub ['P', 'A', 'G', 'E', ':', ' '] (l₁ ++ '\n' :: l₂) =
      countSub ['P', 'A', 'G', 'E', ':', ' '] l₁ +
        countSub ['P', 'A', 'G', 'E', ':', ' '] l₂ :=
  countSub_append_sep 'P' ['A', 'G', 'E', ':', ' '] '\n' (by decide) l₁ l₂

theorem countPage_cons_nl (l : List Char) :
    countSub ['P', 'A', 'G', 'E', ':', ' '] ('\n' :: l) =
      countSub ['P', 'A', 'G', 'E', ':', ' '] l := by
  have h := countPage_sep [] l
  rw [List.nil_append] at h
  rw [h, countSub_nil_eq, Nat.zero_add]

theorem countPage_marker (l : List Char) :
    countSub ['P', 'A', 'G', 'E', ':', ' '] (['P', 'A', 'G', 'E', ':', ' '] ++ l) =
      1 + countSub ['P', 'A', 'G', 'E', ':', ' '] l :=
  countSub_self_append 'P' ['A', 'G', 'E', ':', ' '] l

theorem countPage_eqBar : countSub ['P', 'A', 'G', 'E', ':', ' '] eqBar.data = 0 := by
  decide

theorem countPage_dbBanner :
    countSub ['P', 'A', 'G', 'E', ':', ' ']
      ['N', 'O', 'T', 'I', 'O', 'N', ' ', 'D', 'A', 'T', 'A', 'B', 'A', 'S', 'E', 'S', ':'] =
      0 := by
  decide

theorem countPage_pgBanner :
    countSub ['P', 'A', 'G', 'E', ':', ' ']
      ['N', 'O', 'T', 'I', 'O', 'N', ' ', 'P', 'A', 'G', 'E', 'S', ':'] = 0 := by
  decide

theorem data_nl : "\n".data = ['\n'] := rfl

theorem data_nlnl : "\n\n".data = ['\n', '\n'] := rfl

theorem data_dbBannerNl : "NOTION DATABASES:\n".data = "NOTION DATABASES:".data ++ ['\n'] :=
  rfl

theorem data_pgBannerNl : "NOTION PAGES:\n".data = "NOTION PAGES:".data ++ ['\n'] := rfl

theorem pagesSection_data (t c : String) (qs : List (String × String)) :
    (pagesSection ((t, c) :: qs)).data =
      '\n' :: (eqBar.data ++ '\n' :: (['P', 'A', 'G', 'E', ':', ' '] ++ (t.data ++ '\n' ::
        (eqBar.data ++ '\n' :: (c.data ++ '\n' :: '\n' ::
          (pagesSection qs).data))))) := by
  simp [pagesSection, pageBlockText, strConcat, String.data_append, data_nl, data_nlnl,
    List.append_assoc]

theorem pyCount_page_eq (s : String) :
    pyCount "PAGE: " s = countSub ['P', 'A', 'G', 'E', ':', ' '] s.data := rfl

theorem countPage_pagesSection :
    ∀ ps : List (String × String),
      (∀ p ∈ ps, pyCount "PAGE: " p.1 = 0 ∧ pyCount "PAGE: " p.2 = 0) →
      countSub ['P', 'A', 'G', 'E', ':', ' '] (pagesSection ps).data = ps.length := by
  intro ps
  induction ps with
  | nil => intro _; rfl
  | cons q qs ih =>
      obtain ⟨t, c⟩ := q
      intro h
      have ht : countSub ['P', 'A', 'G', 'E', ':', ' '] t.data = 0 := by
        rw [← pyCount_page_eq]
        exact (h (t, c) (List.mem_cons_self _ _)).1
      have hc : countSub ['P', 'A', 'G', 'E', ':', ' '] c.data = 0 := by
        rw [← pyCount_page_eq]
        exact (h (t, c) (List.mem_cons_self _ _)).2
      have hqs := ih (fun p hp => h p (List.mem_cons_of_mem _ hp))
      rw [pagesSection_data]
      simp only [countPage_cons_nl, countPage_sep, countPage_marker, countPage_eqBar,
        ht, hc, hqs, List.length_cons]
      omega

theorem containsSubList_iff (needle : List Char) :
    ∀ hay : List Char, containsSubList needle hay = true ↔ needle <:+: hay := by
  intro hay
  induction hay with
  | nil => simp [containsSubList, List.isEmpty_iff, List.infix_nil]
  | cons c rest ih =>
      simp [containsSubList, List.isPrefixOf_iff_prefix, ih, List.infix_cons_iff]

theorem pagesSection_cons_ne (t c : String) (qs : List (String × String)) :
    pagesSection ((t, c) :: qs) ≠ "" := by
  intro h
  have hd := congrArg String.data h
  rw [pagesSection_data] at hd
  simp at hd

theorem notionContent_data_full (db : String) (ps : List (String × String))
    (hdb : db ≠ "") (hps : pagesSection ps ≠ "") :
    (notionContent db ps).data =
      "NOTION DATABASES:".data ++ '\n' :: (eqBar.data ++ '\n' ::
        (db.data ++ '\n' :: '\n' ::
          ("NOTION PAGES:".data ++ '\n' :: (eqBar.data ++ '\n' ::
            (pagesSection ps).data)))) := by
  unfold notionContent
  rw [if_pos hdb, if_pos hps]
  simp [String.data_append, data_dbBannerNl, data_pgBannerNl, data_nl, data_nlnl,
    List.append_assoc]

theorem notionContent_data_pagesOnly (ps : List (String × String))
    (hps : pagesSection ps ≠ "") :
    (notionContent "" ps).data =
      "NOTION PAGES:".data ++ '\n' :: (eqBar.data ++ '\n' :: (pagesSection ps).data) := by
  unfold notionContent
  rw [if_neg (by simp), if_pos hps]
  simp [String.data_append, data_pgBannerNl, data_nl, List.append_assoc]

theorem notionContent_data_dbOnly (db : String) (ps : List (String × String))
    (hdb : db ≠ "") (hps : pagesSection ps = "") :
    (notionContent db ps).data =
      "NOTION DATABASES:".data ++ '\n' :: (eqBar.data ++ '\n' ::
        (db.data ++ '\n' :: ['\n'])) := by
  unfold notionContent
  rw [if_pos hdb, if_neg (by simp [hps])]
  simp [String.data_append, data_dbBannerNl, data_nl, data_nlnl, List.append_assoc]

theorem notionContent_data_empty (ps : List (String × String))
    (hps : pagesSection ps = "") :
    (notionContent "" ps).data = [] := by
  unfold notionContent
  rw [if_neg (by simp), if_neg (by simp [hps])]
  rfl

theorem countPage_notionContent (db : String) (ps : List (String × String))
    (hdb : pyCount "PAGE: " db = 0)
    (hps : ∀ p ∈ ps, pyCount "PAGE: " p.1 = 0 ∧ pyCount "PAGE: " p.2 = 0) :
    countSub ['P', 'A', 'G', 'E', ':', ' '] (notionContent db ps).data = ps.length := by
  have hdb' : countSub ['P', 'A', 'G', 'E', ':', ' '] db.data = 0 := by
    rw [← pyCount_page_eq]
    exact hdb
  have hsec := countPage_pagesSection ps hps
  by_cases hpse : pagesSection ps = ""
  · have h0 : ps.length = 0 := by
      rw [hpse] at hsec
      rw [show ("" : String).data = ([] : List Char) from rfl, countSub_nil_eq] at hsec
      omega
    by_cases hdbe : db = ""
    · subst hdbe
      rw [notionContent_data_empty ps hpse, countSub_nil_eq, h0]
    · rw [notionContent_data_dbOnly db ps hdbe hpse, h0]
      simp only [countPage_sep, countPage_cons_nl, countPage_dbBanner, countPage_eqBar,
        hdb', countSub_nil_eq]
  · by_cases hdbe : db = ""
    · subst hdbe
      rw [notionContent_data_pagesOnly ps hpse]
      simp only [countPage_sep, countPage_cons_nl, countPage_pgBanner, countPage_eqBar,
        hsec]
      omega
    · rw [notionContent_data_full db ps hdbe hpse]
      simp only [countPage_sep, countPage_cons_nl, countPage_dbBanner, countPage_pgBanner,
        countPage_eqBar, hdb', hsec]
      omega

theorem pyInStr_pgBanner (db : String) (ps : List (String × String))
    (hps : pagesSection ps ≠ "") :
    pyInStr "NOTION PAGES:" (notionContent db ps) = true := by
  show containsSubList "NOTION PAGES:".data (notionContent db ps).data = true
  rw [containsSubList_iff]
  by_cases hdbe : db = ""
  · subst hdbe
    exact ⟨[], '\n' :: (eqBar.data ++ '\n' :: (pagesSection ps).data),
      by rw [notionContent_data_pagesOnly ps hps]; simp⟩
  · exact ⟨"NOTION DATABASES:".data ++ '\n' :: (eqBar.data ++ '\n' ::
        (db.data ++ '\n' :: '\n' :: [])),
      '\n' :: (eqBar.data ++ '\n' :: (pagesSection ps).data),
      by rw [notionContent_data_full db ps hdbe hps]; simp⟩

/-- C1 counterexample: database content may itself contain the substring
`"PAGE: "` (here a database whose formatted text holds `"PAGE: x"`), which
the summary counter also counts, so with one loaded page the reported page
count is 2, not 1. -/
theorem aggregate_page_count_cex :
    pageCount (notionContent "PAGE: x" [("T", "B")]) = 2 ∧
    ([("T", "B")] : List (String × String)).length = 1 :=
  ⟨by decide, rfl⟩

/-- C1 (amended): the reported page count equals the number of successfully
flattened, non-empty pages provided the literal substring `"PAGE: "` occurs
nowhere in the database content, the page titles, or the flattened page
bodies; without that proviso the occurrence count can overshoot, as the
counterexample shows. -/
theorem aggregate_page_count (db : String) (ps : List (String × String))
    (hdb : pyCount "PAGE: " db = 0)
    (hps : ∀ p ∈ ps, pyCount "PAGE: " p.1 = 0 ∧ pyCount "PAGE: " p.2 = 0 ∧ p.2 ≠ "") :
    pageCount (notionContent db ps) = ps.length := by
  have hps' : ∀ p ∈ ps, pyCount "PAGE: " p.1 = 0 ∧ pyCount "PAGE: " p.2 = 0 :=
    fun p hp => ⟨(hps p hp).1, (hps p hp).2.1⟩
  unfold pageCount
  cases hin : pyInStr "NOTION PAGES:" (notionContent db ps) with
  | true =>
      rw [if_pos rfl, pyCount_page_eq]
      exact countPage_notionContent db ps hdb hps'
  | false =>
      rw [if_neg (by simp)]
      cases ps with
      | nil => rfl
      | cons q qs =>
          exfalso
          obtain ⟨t, c⟩ := q
          rw [pyInStr_pgBanner db ((t, c) :: qs) (pagesSection_cons_ne t c qs)] at hin
          cases hin

/-- C1 witness: one clean page and clean database content give page count
1. -/
theorem aggregate_page_count_witness :
    pyCount "PAGE: " "D" = 0 ∧ pageCount (notionContent "D" [("T", "B")]) = 1 :=
  ⟨by decide, aggregate_page_count "D" [("T", "B")] (by decide) (by decide)⟩

/-- C4 counterexample: the program's output at this input differs from the
claimed oracle string in two places: the bullet is rendered with the
double-encoded glyph sequence the source literal actually contains (U+00E2
U+20AC U+00A2, not U+2022), and `get_page_content` strips the collapsed
text, so the output carries no trailing newline. -/
theorem flatten_oracle_cex :
    (get_page_content_text "Page"
        [⟨.heading1, ["Title"], false, []⟩, ⟨.paragraph, ["Hello"], false, []⟩,
         ⟨.divider, [], false, []⟩, ⟨.bulleted, ["Item A"], false, []⟩] ==
      "# Page\n\n# Title\nHello\n\n---\n• Item A\n") = false := by
  decide

/-- C4 (amended): for the given title and blocks, flattening (title header,
per-block rendering, newline-run collapse, final whitespace trim) yields
exactly `"# Page\n\n# Title\nHello\n\n---\n" ++ "â€¢" ++
" Item A"`: the bulleted item uses the double-encoded bullet characters the
source literal holds, and the final trim removes the trailing newline the
claim's oracle string kept. -/
theorem flatten_oracle :
    get_page_content_text "Page"
        [⟨.heading1, ["Title"], false, []⟩, ⟨.paragraph, ["Hello"], false, []⟩,
         ⟨.divider, [], false, []⟩, ⟨.bulleted, ["Item A"], false, []⟩] =
      "# Page\n\n# Title\nHello\n\n---\n\u00E2\u20AC\u00A2 Item A" := by
  decide

theorem pyIsSpace_nl : pyIsSpace '\n' = true := by decide

theorem collapseAux_head (fuel : Nat) (l : List Char) :
    (collapseAux fuel l).head? = l.head? := by
  match fuel, l with
  | 0, l => rfl
  | _ + 1, [] => rfl
  | fuel + 1, c :: rest =>
      unfold collapseAux
      split
      · next h => simp [h.1]
      · rfl

theorem cons_prefix_gives_head {a : Char} {u v : List Char} (h : (a :: u) <+: v) :
    v.head? = some a := by
  rcases h with ⟨t, ht⟩
  rw [← ht]
  rfl

theorem wsRun_cons_nl (rest : List Char) :
    wsRun ('\n' :: rest) = '\n' :: wsRun rest := by
  simp [wsRun, List.takeWhile_cons, pyIsSpace_nl]

theorem lastNlLen_pos_of_nl (w : List Char) : 1 ≤ lastNlLen ('\n' :: w) := by
  simp only [lastNlLen]
  split
  · simp
  · omega

theorem collapseAux_two_nl (fuel : Nat) :
    ∀ l : List Char, ('\n' :: '\n' :: []) <+: collapseAux fuel l →
      2 ≤ nlCount (wsRun l) := by
  intro l h
  match fuel, l with
  | 0, l =>
      have hh : l.head? = some '\n' := cons_prefix_gives_head h
      cases l with
      | nil => simp at hh
      | cons b rest =>
          simp only [List.head?_cons, Option.some.injEq] at hh
          subst hh
          have hh2 : rest.head? = some '\n' := by
            rcases h with ⟨t, ht⟩
            have ht' : ('\n' :: '\n' :: t : List Char) = '\n' :: rest := ht
            injection ht' with _ h4
            rw [← h4]
            rfl
          cases rest with
          | nil => simp at hh2
          | cons b2 rest' =>
              simp only [List.head?_cons, Option.some.injEq] at hh2
              subst hh2
              rw [wsRun_cons_nl, wsRun_cons_nl]
              simp [nlCount, List.count_cons]
  | fuel + 1, [] => simp [collapseAux] at h
  | fuel + 1, c :: rest =>
      rw [collapseAux] at h
      split at h
      · next hcond =>
          obtain ⟨_, h3⟩ := hcond
          omega
      · next hcond =>
          rcases List.cons_prefix_cons.mp h with ⟨hc, h2⟩
          subst hc
          have hh : (collapseAux fuel rest).head? = some '\n' := cons_prefix_gives_head h2
          rw [collapseAux_head] at hh
          cases rest with
          | nil => simp at hh
          | cons b2 rest' =>
              simp only [List.head?_cons, Option.some.injEq] at hh
              subst hh
              rw [wsRun_cons_nl, wsRun_cons_nl]
              simp [nlCount, List.count_cons]

theorem head_drop_lastNl :
    ∀ l : List Char, ∀ c : Char,
      (List.drop (lastNlLen (wsRun l)) l).head? = some c → c ≠ '\n' := by
  intro l
  induction l with
  | nil => intro c h; simp at h
  | cons a rest ih =>
      intro c h
      by_cases ha : pyIsSpace a = true
      · have hws : wsRun (a :: rest) = a :: wsRun rest := by
          simp [wsRun, List.takeWhile_cons, ha]
        rw [hws] at h
        by_cases hr : lastNlLen (wsRun rest) = 0
        · by_cases han : a = '\n'
          · have h1 : lastNlLen (a :: wsRun rest) = 1 := by
              simp [lastNlLen, hr, han]
            rw [h1] at h
            simp only [List.drop_succ_cons, List.drop_zero] at h
            intro hc
            subst hc
            cases rest with
            | nil => simp at h
            | cons b rest' =>
                simp only [List.head?_cons, Option.some.injEq] at h
                subst h
                rw [wsRun_cons_nl] at hr
                have := lastNlLen_pos_of_nl (wsRun rest')
                omega
          · have h1 : lastNlLen (a :: wsRun rest) = 0 := by
              simp [lastNlLen, hr, han]
            rw [h1] at h
            simp only [List.drop_zero, List.head?_cons, Option.some.injEq] at h
            intro hc
            exact han (h.trans hc)
        · have h1 : lastNlLen (a :: wsRun rest) = lastNlLen (wsRun rest) + 1 := by
            simp [lastNlLen, hr]
          rw [h1] at h
          simp only [List.drop_succ_cons] at h
          exact ih c h
      · have hws : wsRun (a :: rest) = [] := by
          simp [wsRun, List.takeWhile_cons, ha]
        rw [hws] at h
        simp only [lastNlLen, List.drop_zero, List.head?_cons, Option.some.injEq] at h
        intro hc
        apply ha
        rw [h.trans hc]
        exact pyIsSpace_nl

theorem collapseAux_no_triple :
    ∀ (fuel : Nat) (l : List Char), l.length ≤ fuel →
      ¬ (('\n' :: '\n' :: '\n' :: []) <:+: collapseAux fuel l) := by
  intro fuel
  induction fuel with
  | zero =>
      intro l hl
      have h0 : l = [] := List.length_eq_zero.mp (Nat.le_zero.mp hl)
      subst h0
      simp [collapseAux, List.infix_nil]
  | succ fuel ih =>
      intro l hl
      cases l with
      | nil => simp [collapseAux, List.infix_nil]
      | cons c rest =>
          rw [collapseAux]
          split
          · next hcond =>
              obtain ⟨hcn, hcnt⟩ := hcond
              subst hcn
              intro htriple
              have hk : 1 ≤ lastNlLen (wsRun ('\n' :: rest)) := by
                rw [wsRun_cons_nl]
                exact lastNlLen_pos_of_nl _
              have hTnl : ∀ c', (collapseAux fuel
                  (List.drop (lastNlLen (wsRun ('\n' :: rest))) ('\n' :: rest))).head? =
                    some c' → c' ≠ '\n' := by
                intro c' hc'
                rw [collapseAux_head] at hc'
                exact head_drop_lastNl ('\n' :: rest) c' hc'
              rcases List.infix_cons_iff.mp htriple with h1 | h1
              · rcases List.cons_prefix_cons.mp h1 with ⟨_, h2⟩
                rcases List.cons_prefix_cons.mp h2 with ⟨_, h3⟩
                exact hTnl '\n' (cons_prefix_gives_head h3) rfl
              · rcases List.infix_cons_iff.mp h1 with h2 | h2
                · rcases List.cons_prefix_cons.mp h2 with ⟨_, h3⟩
                  exact hTnl '\n' (cons_prefix_gives_head h3) rfl
                · refine ih (List.drop (lastNlLen (wsRun ('\n' :: rest))) ('\n' :: rest))
                    ?_ h2
                  simp only [List.length_drop, List.length_cons]
                  simp only [List.length_cons] at hl
                  omega
          · next hcond =>
              intro htriple
              rcases List.infix_cons_iff.mp htriple with h1 | h1
              · rcases List.cons_prefix_cons.mp h1 with ⟨hc3, h2⟩
                subst hc3
                have h3 := collapseAux_two_nl fuel rest h2
                apply hcond
                refine ⟨rfl, ?_⟩
                rw [wsRun_cons_nl]
                simp [nlCount, List.count_cons] at h3 ⊢
                omega
              · exact ih rest (by simp at hl; omega) h1

theorem pyStripList_isInfix (l : List Char) : pyStripList l <:+: l := by
  unfold pyStripList
  have h1 : l.dropWhile pyIsSpace <:+ l := List.dropWhile_suffix _
  have h2 : ((l.dropWhile pyIsSpace).reverse.dropWhile pyIsSpace).reverse <+:
      l.dropWhile pyIsSpace := by
    apply List.reverse_suffix.mp
    simpa using List.dropWhile_suffix (l := (l.dropWhile pyIsSpace).reverse) pyIsSpace
  exact h2.isInfix.trans h1.isInfix

/-- C5: for every page title and block sequence, the flattened page text
(after the newline-run collapse and the final trim) contains no run of 3 or
more consecutive newline characters. -/
theorem flatten_no_triple_newline (title : String) (blocks : List Block) :
    containsSubList ['\n', '\n', '\n']
      (get_page_content_text title blocks).data = false := by
  cases hb : containsSubList ['\n', '\n', '\n']
      (get_page_content_text title blocks).data with
  | false => rfl
  | true =>
      exfalso
      have hinf := (containsSubList_iff _ _).mp hb
      have hstep : (get_page_content_text title blocks).data =
          pyStripList ((pySubCollapse (pageRaw title blocks)).data) := rfl
      rw [hstep] at hinf
      have hinf2 : ('\n' :: '\n' :: '\n' :: []) <:+:
          (pySubCollapse (pageRaw title blocks)).data :=
        hinf.trans (pyStripList_isInfix _)
      exact collapseAux_no_triple (pageRaw title blocks).data.length
        (pageRaw title blocks).data (le_refl _) hinf2

end NotionAgent
